import Mathlib

set_option maxHeartbeats 1000000

/-!
Shallow embedding of the `pi-natives` process supervision crate
(`src/crates/pi-natives/src/ps.rs` and `src/crates/pi-natives/src/shell.rs`).

The OS surface (the `/proc/{pid}/task/{pid}/children` listing, signal
delivery acknowledgements, pipe read results, the race winner among the
run / cancel / timeout branches) is passed in as explicit oracles, so the
functions below are the pure control paths of the source.
-/

/-! ## `ps.rs`: process tree enumeration and bottom-up termination -/

/-- The `/proc/{pid}/task/{pid}/children` relation, already split on
whitespace and parsed: `none` models an unreadable listing (process exited
or permission denied, the `else return` branch), `some l` the parsed child
pid list in file order. -/
abbrev ProcChildren : Type := Int → Option (List Int)

/-- The loop body of `platform::collect_descendants` (Linux): for each child
pid in listing order, push the child, then recurse into it (`rec` is the
recursive call at one less fuel), then continue with the remaining
siblings. -/
def collect_from (rec : Int → List Int) : List Int → List Int
  | [] => []
  | c :: rest => c :: rec c ++ collect_from rec rest

/-- `platform::collect_descendants` (Linux): recursively collects all
descendant pids of `pid` in pre-order depth-first order, skipping a branch
when its children listing is unreadable. `fuel` bounds the recursion depth;
the Rust recursion terminates because real process trees are finite, so any
`fuel` at least the tree depth is exact. -/
def collect_descendants (env : ProcChildren) : Nat → Int → List Int
  | 0 => fun _ => []
  | fuel + 1 => fun pid =>
    match env pid with
    | none => []
    | some children => collect_from (collect_descendants env fuel) children

/-- Everything `kill_tree` does, recorded: the pids in the order a kill was
attempted on them, and the returned count of acknowledged kills. -/
structure KillTreeTrace where
  order : List Int
  killed : Nat
  deriving Repr, DecidableEq

/-- `kill_tree` from `ps.rs`: enumerate descendants, signal them in reverse
enumeration order counting the acknowledged deliveries (`killOk p s` is the
oracle for `platform::kill_pid(p, s)`), then signal the root last. -/
def kill_tree (env : ProcChildren) (killOk : Int → Int → Bool) (fuel : Nat)
    (pid signal : Int) : KillTreeTrace :=
  let descendants := collect_descendants env fuel pid
  let childKilled :=
    descendants.reverse.foldl (fun k p => if killOk p signal then k + 1 else k) 0
  let killed := if killOk pid signal then childKilled + 1 else childKilled
  { order := descendants.reverse ++ [pid], killed := killed }

/-- `list_descendants` from `ps.rs`: the read-only counterpart of the same
enumeration. -/
def list_descendants (env : ProcChildren) (fuel : Nat) (pid : Int) : List Int :=
  collect_descendants env fuel pid

/-! ## `shell.rs`: execution registry, supervisor race, escalation -/

/-- `SIGINT` as used by `attempt_kill_children`. -/
def SIGINT : Int := 2

/-- `SIGKILL` as used by `attempt_kill_children`. -/
def SIGKILL : Int := 9

/-- One observable action of `attempt_kill_children`: a `libc::kill`
attempt, or the fixed grace-period sleep between the two signal passes. -/
inductive EscalationStep where
  | kill (pid signal : Int)
  | sleepMs (ms : Nat)
  deriving Repr, DecidableEq

/-- `attempt_kill_children` (the `cfg(unix)` body): read the current
process's direct children from `/proc/{pid}/task/{pid}/children` (`children`
is the parsed read result; `none` models an unreadable listing), return
silently if unreadable or empty, otherwise send `SIGINT` to every child,
sleep 50 ms, then send `SIGKILL` to every pid of that same list. -/
def attempt_kill_children (children : Option (List Int)) : List EscalationStep :=
  match children with
  | none => []
  | some pids =>
    if pids.isEmpty then []
    else
      (pids.map fun p => EscalationStep.kill p SIGINT)
        ++ [EscalationStep.sleepMs 50]
        ++ (pids.map fun p => EscalationStep.kill p SIGKILL)

/-- `attempt_kill_children` (the `cfg(not(unix))` body): a no-op. -/
def attempt_kill_children_nonunix : List EscalationStep := []

/-- The pids of `steps` whose kill attempt with signal `signal` is actually
delivered: delivery of a signal reaches exactly the processes still present
(`present`); an attempt on an absent pid is ignored by the OS. -/
def killsDelivered (present : Int → Bool) (signal : Int)
    (steps : List EscalationStep) : List Int :=
  steps.filterMap fun s =>
    match s with
    | EscalationStep.kill p sg => if sg = signal ∧ present p then some p else none
    | EscalationStep.sleepMs _ => none

/-- `ShellExecuteOptions` from `shell.rs` (the `env` map is carried as an
association list; its iteration order is an oracle for `HashMap`
iteration). -/
structure ShellExecuteOptions where
  command : String
  cwd : Option String
  env : Option (List (String × String))
  timeout_ms : Option Nat
  execution_id : String

/-- `ShellExecuteResult` from `shell.rs`. -/
structure ShellExecuteResult where
  exit_code : Option Int
  cancelled : Bool
  timed_out : Bool
  deriving Repr, DecidableEq

/-- The error values `execute_shell` / `abort_shell_execution` can surface
(lock poisoning, a panic-propagation artifact, is not modelled: the pure
model has no panics). -/
inductive ShellError where
  | executionAlreadyRunning
  | shellFailed (msg : String)
  deriving Repr, DecidableEq

/-- Which branch of the `tokio::select!` race fires first. -/
inductive RaceWinner where
  | completed
  | cancelledSignal
  | timeoutFired
  deriving Repr, DecidableEq

/-- The environment one `execute_shell` call observes: the race winner, the
result `run_shell` would return if the run branch wins (exit code or
failure text), and the `/proc` children listing at escalation time. -/
structure SupervisorEnv where
  race : RaceWinner
  runResult : Except String Int
  children : Option (List Int)

/-- The observable effects of one `execute_shell` call. `registryDuring` is
the registry contents while the execution runs (right after registration),
`registryAfter` the contents at return, after the `ExecutionGuard` drop;
`ran` records whether the run was started at all. -/
structure ExecTrace where
  result : Except ShellError ShellExecuteResult
  registryDuring : List String
  registryAfter : List String
  escalation : List EscalationStep
  ran : Bool

/-- `execute_shell` from `shell.rs` over a registry holding the ids of the
in-flight executions (the `EXECUTIONS` map keys; `HashMap` key uniqueness
corresponds to the no-duplicate-insert discipline proved below). The
duplicate check rejects before inserting; otherwise the id is inserted, the
race is run, and on every exit path the `ExecutionGuard` drop removes the
id. On the cancel and timeout branches `attempt_kill_children` runs before
the outcome is returned. When no timeout is configured the `select!` has no
timeout branch, so only the run and cancel branches can win. -/
def execute_shell (reg : List String) (opts : ShellExecuteOptions)
    (oracle : SupervisorEnv) : ExecTrace :=
  if reg.contains opts.execution_id then
    { result := Except.error ShellError.executionAlreadyRunning
      registryDuring := reg
      registryAfter := reg
      escalation := []
      ran := false }
  else
    let reg' := opts.execution_id :: reg
    let regFinal := reg'.erase opts.execution_id
    let cancelBranch : ExecTrace :=
      { result := Except.ok { exit_code := none, cancelled := true, timed_out := false }
        registryDuring := reg'
        registryAfter := regFinal
        escalation := attempt_kill_children oracle.children
        ran := true }
    let timeoutBranch : ExecTrace :=
      { result := Except.ok { exit_code := none, cancelled := false, timed_out := true }
        registryDuring := reg'
        registryAfter := regFinal
        escalation := attempt_kill_children oracle.children
        ran := true }
    let completedBranch : ExecTrace :=
      { result :=
          match oracle.runResult with
          | Except.ok code =>
              Except.ok { exit_code := some code, cancelled := false, timed_out := false }
          | Except.error msg => Except.error (ShellError.shellFailed msg)
        registryDuring := reg'
        registryAfter := regFinal
        escalation := []
        ran := true }
    match opts.timeout_ms with
    | some _ =>
      match oracle.race with
      | RaceWinner.completed => completedBranch
      | RaceWinner.cancelledSignal => cancelBranch
      | RaceWinner.timeoutFired => timeoutBranch
    | none =>
      match oracle.race with
      | RaceWinner.cancelledSignal => cancelBranch
      | _ => completedBranch

/-- The observable effects of one `abort_shell_execution` call. -/
structure AbortTrace where
  registryAfter : List String
  fired : Bool
  result : Except ShellError Unit

/-- `abort_shell_execution` from `shell.rs`: remove the record for
`execution_id` if present and fire its cancellation channel; always return
`Ok(())`. -/
def abort_shell_execution (reg : List String) (execution_id : String) : AbortTrace :=
  { registryAfter := reg.erase execution_id
    fired := reg.contains execution_id
    result := Except.ok () }

/-! ## `run_shell`: interpreter environment setup -/

/-- The fields of brush-core's `CreateOptions` that `run_shell` sets. -/
structure CreateOptions where
  interactive : Bool
  login : Bool
  no_profile : Bool
  no_rc : Bool
  do_not_inherit_env : Bool

/-- The literal `CreateOptions` value built at the top of `run_shell`. -/
def run_shell_create_options : CreateOptions :=
  { interactive := false
    login := false
    no_profile := true
    no_rc := true
    do_not_inherit_env := true }

/-- A shell variable as `run_shell` builds it: a string value plus the
export flag set by `var.export()`. -/
structure ShellVariable where
  value : String
  exported : Bool
  deriving Repr, DecidableEq

/-- The interpreter's variable environment, keyed by name. -/
abbrev EnvMap : Type := String → Option ShellVariable

/-- brush-core's `env.set_global`: bind `k` to `v`, replacing any previous
binding. -/
def set_global (env : EnvMap) (k : String) (v : ShellVariable) : EnvMap :=
  fun k' => if k' = k then some v else env k'

/-- Modelled from the spec: the interpreter collaborator (brush-core's
`Shell::new`, outside this repository) supports "non-interactive
initialization with no login/profile/rc side effects" and, with
`do_not_inherit_env` set, "starts from a clean slate plus only what is
explicitly supplied" — its initial environment is empty instead of the
ambient host environment. -/
def shell_new_env (ambient : EnvMap) (opts : CreateOptions) : EnvMap :=
  if opts.do_not_inherit_env then fun _ => none else ambient

/-- The environment-setup portion of `run_shell`: create the shell with
`run_shell_create_options` over the ambient host environment, then, when an
`env` mapping is supplied, set each entry as an exported global variable in
iteration order. -/
def run_shell_env (ambient : EnvMap) (envOpt : Option (List (String × String))) : EnvMap :=
  let shellEnv := shell_new_env ambient run_shell_create_options
  match envOpt with
  | none => shellEnv
  | some env =>
    env.foldl (fun acc kv => set_global acc kv.1 { value := kv.2, exported := true }) shellEnv

/-! ## `read_output`: the output relay worker -/

/-- One `reader.read(&mut buf)` outcome as the relay loop sees it: either
`Ok(n)` (with `n = 0` meaning end-of-stream once the remaining bytes run
out) or `Err(_)`. -/
inductive ReadResult where
  | ok (n : Nat)
  | err
  deriving Repr, DecidableEq

/-- The byte chunks the relay loop of `read_output` drains from the pipe.
`stream` is the full byte stream written by the command that is still
unread; `events` is the schedule of read outcomes. A read returns at most
the 8192-byte buffer size and at most the bytes remaining; a read returning
0 is end-of-stream and breaks the loop, as does an I/O error. -/
def read_output_chunks (stream : List Nat) : List ReadResult → List (List Nat)
  | [] => []
  | ReadResult.err :: _ => []
  | ReadResult.ok n :: rest =>
    let k := min (min n 8192) stream.length
    if k = 0 then []
    else stream.take k :: read_output_chunks (stream.drop k) rest

/-- The continuation-byte test and accumulation state of Rust's UTF-8
validation: `more needed acc lo hi` means `needed` continuation bytes are
still expected, the next one must lie in `[lo, hi]`, and `acc` holds the
scalar-value bits decoded so far. -/
inductive Utf8Pending where
  | none
  | more (needed : Nat) (acc : Nat) (lo hi : Nat)
  deriving Repr, DecidableEq

/-- Classify one byte in the initial decoder state, per the ranges of Rust's
`run_utf8_validation` (overlong and surrogate lead bytes are invalid): emit
an ASCII scalar, open a multi-byte sequence, or emit one U+FFFD for an
invalid lead byte. -/
def utf8_start (b : Nat) : List Nat × Utf8Pending :=
  if b < 0x80 then ([b], Utf8Pending.none)
  else if 0xC2 ≤ b ∧ b ≤ 0xDF then ([], Utf8Pending.more 1 (b - 0xC0) 0x80 0xBF)
  else if b = 0xE0 then ([], Utf8Pending.more 2 (b - 0xE0) 0xA0 0xBF)
  else if 0xE1 ≤ b ∧ b ≤ 0xEC then ([], Utf8Pending.more 2 (b - 0xE0) 0x80 0xBF)
  else if b = 0xED then ([], Utf8Pending.more 2 (b - 0xE0) 0x80 0x9F)
  else if 0xEE ≤ b ∧ b ≤ 0xEF then ([], Utf8Pending.more 2 (b - 0xE0) 0x80 0xBF)
  else if b = 0xF0 then ([], Utf8Pending.more 3 (b - 0xF0) 0x90 0xBF)
  else if 0xF1 ≤ b ∧ b ≤ 0xF3 then ([], Utf8Pending.more 3 (b - 0xF0) 0x80 0xBF)
  else if b = 0xF4 then ([], Utf8Pending.more 3 (b - 0xF0) 0x80 0x8F)
  else ([0xFFFD], Utf8Pending.none)

/-- Run Rust's lossy UTF-8 decoding (`String::from_utf8_lossy`) over a byte
list, producing the Unicode scalar values of the decoded text. On an
invalid continuation byte one U+FFFD replaces the ill-formed prefix and
validation resumes at the offending byte; a sequence truncated by the end
of input becomes one U+FFFD. -/
def utf8_run : Utf8Pending → List Nat → List Nat
  | Utf8Pending.none, [] => []
  | Utf8Pending.more _ _ _ _, [] => [0xFFFD]
  | Utf8Pending.none, b :: rest =>
    let s := utf8_start b
    s.1 ++ utf8_run s.2 rest
  | Utf8Pending.more needed acc lo hi, b :: rest =>
    if lo ≤ b ∧ b ≤ hi then
      match needed with
      | 1 => (acc * 64 + (b - 0x80)) :: utf8_run Utf8Pending.none rest
      | _ => utf8_run (Utf8Pending.more (needed - 1) (acc * 64 + (b - 0x80)) 0x80 0xBF) rest
    else
      0xFFFD :: (utf8_start b).1 ++ utf8_run (utf8_start b).2 rest

/-- `String::from_utf8_lossy` as applied to one chunk, as the scalar values
of the resulting text. -/
def utf8_decode_lossy (bs : List Nat) : List Nat :=
  utf8_run Utf8Pending.none bs

/-- `read_output` from `shell.rs`: the text chunks delivered to the
`on_chunk` callback, each the lossy decoding of the byte chunk drained on
that loop iteration. -/
def read_output (stream : List Nat) (events : List ReadResult) : List (List Nat) :=
  (read_output_chunks stream events).map utf8_decode_lossy

/-! ## Concrete sample values used by the witnesses -/

/-- A concrete options value: no timeout configured. -/
def sampleOpts : ShellExecuteOptions :=
  { command := "true"
    cwd := none
    env := none
    timeout_ms := none
    execution_id := "exec-a" }

/-- A concrete options value with a timeout configured. -/
def sampleOptsTimeout : ShellExecuteOptions :=
  { command := "sleep 60"
    cwd := none
    env := none
    timeout_ms := some 100
    execution_id := "exec-b" }

/-- A concrete oracle: the run branch wins with exit code 0. -/
def sampleOracleDone : SupervisorEnv :=
  { race := RaceWinner.completed
    runResult := Except.ok 0
    children := some [4242] }

/-- A concrete oracle: the cancellation branch wins; one direct child. -/
def sampleOracleCancel : SupervisorEnv :=
  { race := RaceWinner.cancelledSignal
    runResult := Except.ok 0
    children := some [4242, 4243] }

/-- A concrete ambient host environment containing a `HOME` variable. -/
def sampleAmbient : EnvMap :=
  fun k => if k = "HOME" then some { value := "/root", exported := true } else none

/-! ## Supporting lemmas -/

lemma contains_eq_true_iff (l : List String) (a : String) :
    l.contains a = true ↔ a ∈ l :=
  List.elem_iff

lemma contains_eq_false_iff (l : List String) (a : String) :
    l.contains a = false ↔ a ∉ l := by
  constructor
  · intro h hm
    rw [(contains_eq_true_iff l a).mpr hm] at h
    cases h
  · intro h
    cases hc : l.contains a with
    | false => rfl
    | true => exact absurd ((contains_eq_true_iff l a).mp hc) h

lemma foldl_count_acc (f : Int → Bool) :
    ∀ (l : List Int) (k : Nat),
      l.foldl (fun k p => if f p then k + 1 else k) k = k + l.countP f := by
  intro l
  induction l with
  | nil => intro k; simp
  | cons x xs ih =>
    intro k
    by_cases hx : f x = true
    · simp [List.foldl_cons, List.countP_cons, hx, ih]
      omega
    · simp only [Bool.not_eq_true] at hx
      simp [List.foldl_cons, List.countP_cons, hx, ih]

/-! ## Claims about `ps.rs` -/

/-- C1: `killTree` enumerates the descendants of `pid` pre-order depth-first
(each child precedes its own subtree, siblings in listing order), signals
them in the exact reverse of that enumeration, signals the root last, and
hence every descendant appears strictly before the root in the recorded
kill order. -/
theorem kill_tree_reverse_order_root_last (env : ProcChildren)
    (killOk : Int → Int → Bool) (fuel : Nat) (pid signal : Int) :
    (kill_tree env killOk fuel pid signal).order =
      (collect_descendants env fuel pid).reverse ++ [pid] ∧
    (∀ children, env pid = some children →
      collect_descendants env (fuel + 1) pid =
        collect_from (collect_descendants env fuel) children) ∧
    (∀ rec c rest, collect_from rec (c :: rest) = c :: rec c ++ collect_from rec rest) ∧
    (kill_tree env killOk fuel pid signal).order.getLast? = some pid ∧
    (∀ d ∈ collect_descendants env fuel pid,
      ∃ l₁ l₂, (kill_tree env killOk fuel pid signal).order = l₁ ++ d :: l₂ ∧ l₂ ≠ []) := by
  refine ⟨rfl, ?_, fun _ _ _ => rfl, ?_, ?_⟩
  · intro children h
    simp [collect_descendants, h]
  · simp [kill_tree]
  · intro d hd
    have hd' : d ∈ (collect_descendants env fuel pid).reverse := List.mem_reverse.mpr hd
    obtain ⟨l₁, l₂, hsplit⟩ := List.append_of_mem hd'
    refine ⟨l₁, l₂ ++ [pid], ?_, by simp⟩
    simp [kill_tree, hsplit]

/-- C9: the value returned by `killTree` is the number of kill attempts (one
per enumerated descendant plus one for the root, i.e. one per entry of the
recorded kill order) whose delivery was acknowledged by `kill_pid`; an
unacknowledged attempt (process already exited or inaccessible) contributes
zero, and the function is total — no attempt produces an error. -/
theorem kill_tree_count (env : ProcChildren) (killOk : Int → Int → Bool)
    (fuel : Nat) (pid signal : Int) :
    (kill_tree env killOk fuel pid signal).killed =
      (kill_tree env killOk fuel pid signal).order.countP (fun p => killOk p signal) ∧
    (kill_tree env killOk fuel pid signal).killed ≤
      (kill_tree env killOk fuel pid signal).order.length := by
  constructor
  · simp only [kill_tree, List.countP_append, foldl_count_acc, Nat.zero_add]
    by_cases h : killOk pid signal = true
    · simp [h]
    · simp only [Bool.not_eq_true] at h
      simp [h]
  · simp only [kill_tree, foldl_count_acc, Nat.zero_add, List.length_append,
      List.length_reverse]
    by_cases h : killOk pid signal = true
    · simp only [h, if_true]
      have := List.countP_le_length (l := (collect_descendants env fuel pid).reverse)
        (p := fun p => killOk p signal)
      simp at this ⊢
      omega
    · simp only [Bool.not_eq_true] at h
      simp only [h, Bool.false_eq_true, if_false]
      have := List.countP_le_length (l := (collect_descendants env fuel pid).reverse)
        (p := fun p => killOk p signal)
      simp at this ⊢
      omega

/-! ## Claims about `execute_shell` and the registry -/

/-- C2: every outcome `execute_shell` returns has at most one of the
`cancelled` / `timed_out` flags set, and carries an exit code exactly when
neither flag is set. -/
theorem execute_shell_outcome_exclusive (reg : List String)
    (opts : ShellExecuteOptions) (oracle : SupervisorEnv) (r : ShellExecuteResult)
    (h : (execute_shell reg opts oracle).result = Except.ok r) :
    ¬(r.cancelled = true ∧ r.timed_out = true) ∧
    (r.exit_code.isSome = true ↔ (r.cancelled = false ∧ r.timed_out = false)) := by
  rcases oracle with ⟨race, runResult, children⟩
  by_cases hdup : opts.execution_id ∈ reg
  · simp [execute_shell, hdup] at h
  · rcases hto : opts.timeout_ms with _ | ms <;>
      rcases race <;> rcases runResult with code | msg <;>
      simp [execute_shell, hdup, hto] at h <;>
      (subst h; simp)

theorem execute_shell_outcome_exclusive_witness :
    (execute_shell [] sampleOpts sampleOracleDone).result =
      Except.ok { exit_code := some 0, cancelled := false, timed_out := false } ∧
    ¬(({ exit_code := some 0, cancelled := false, timed_out := false } :
        ShellExecuteResult).cancelled = true ∧
      ({ exit_code := some 0, cancelled := false, timed_out := false } :
        ShellExecuteResult).timed_out = true) :=
  ⟨rfl,
   (execute_shell_outcome_exclusive [] sampleOpts sampleOracleDone _ rfl).1⟩

/-- C4: the registry keeps at most one record per execution id (a registry
with no duplicate ids stays duplicate-free through registration, through
the guard's removal, and through `abort_shell_execution`); while a
registration succeeds the record is present exactly for the duration of the
run, and on every exit path — success, cancellation, timeout, and run
failure, i.e. for every oracle — the `ExecutionGuard` scope removes the
record, restoring the registry, never leaking; a rejected duplicate call
leaves the registry untouched. -/
theorem execute_shell_registry_guard (reg : List String)
    (opts : ShellExecuteOptions) (oracle : SupervisorEnv) (hnd : reg.Nodup) :
    (execute_shell reg opts oracle).registryDuring.Nodup ∧
    (execute_shell reg opts oracle).registryAfter.Nodup ∧
    (∀ (r : List String) (i : String), r.Nodup →
      (abort_shell_execution r i).registryAfter.Nodup) ∧
    (reg.contains opts.execution_id = false →
      (execute_shell reg opts oracle).registryDuring = opts.execution_id :: reg ∧
      (execute_shell reg opts oracle).registryDuring.contains opts.execution_id = true ∧
      (execute_shell reg opts oracle).registryAfter = reg ∧
      (execute_shell reg opts oracle).registryAfter.contains opts.execution_id = false) ∧
    (reg.contains opts.execution_id = true →
      (execute_shell reg opts oracle).registryDuring = reg ∧
      (execute_shell reg opts oracle).registryAfter = reg ∧
      (execute_shell reg opts oracle).ran = false) := by
  have herase : ∀ (l : List String) (i : String), (i :: l).erase i = l := by
    intro l i
    simp [List.erase_cons_head]
  have haborts : ∀ (r : List String) (i : String), r.Nodup →
      (abort_shell_execution r i).registryAfter.Nodup := by
    intro r i hr
    simpa [abort_shell_execution] using hr.erase i
  by_cases hdup : opts.execution_id ∈ reg
  · have hc : reg.contains opts.execution_id = true :=
      (contains_eq_true_iff reg opts.execution_id).mpr hdup
    refine ⟨?_, ?_, haborts, ?_, ?_⟩ <;>
      simp [execute_shell, hdup, hc, hnd]
  · have hc : reg.contains opts.execution_id = false :=
      (contains_eq_false_iff reg opts.execution_id).mpr hdup
    have hduring : (execute_shell reg opts oracle).registryDuring =
        opts.execution_id :: reg := by
      rcases oracle with ⟨race, runResult, children⟩
      rcases hto : opts.timeout_ms with _ | ms <;> rcases race <;>
        simp [execute_shell, hdup, hto]
    have hafter : (execute_shell reg opts oracle).registryAfter = reg := by
      rcases oracle with ⟨race, runResult, children⟩
      rcases hto : opts.timeout_ms with _ | ms <;> rcases race <;>
        simp [execute_shell, hdup, hto, herase]
    refine ⟨?_, ?_, haborts, ?_, ?_⟩
    · rw [hduring]
      exact List.Nodup.cons hdup hnd
    · rw [hafter]; exact hnd
    · intro _
      refine ⟨hduring, ?_, hafter, ?_⟩
      · rw [hduring]
        exact (contains_eq_true_iff _ _).mpr (List.mem_cons_self _ _)
      · rw [hafter]; exact hc
    · intro hcontra
      rw [hcontra] at hc
      cases hc

theorem execute_shell_registry_guard_witness :
    ([] : List String).Nodup ∧
    (execute_shell [] sampleOpts sampleOracleDone).registryDuring = ["exec-a"] ∧
    (execute_shell [] sampleOpts sampleOracleDone).registryAfter = [] :=
  ⟨List.nodup_nil,
   ((execute_shell_registry_guard [] sampleOpts sampleOracleDone List.nodup_nil).2.2.2.1
      rfl).1,
   ((execute_shell_registry_guard [] sampleOpts sampleOracleDone List.nodup_nil).2.2.2.1
      rfl).2.2.1⟩

/-- C5: while an execution with some id is registered, a second
`execute_shell` call with the same id fails with the duplicate-execution
error and never starts its run, while a call with a distinct free id
proceeds (registers and runs) independently. -/
theorem execute_shell_duplicate_rejected (reg : List String)
    (opts₁ opts₂ opts₃ : ShellExecuteOptions) (oracle₁ oracle₂ oracle₃ : SupervisorEnv)
    (hsame : opts₃.execution_id = opts₁.execution_id)
    (hdistinct : opts₂.execution_id ≠ opts₁.execution_id)
    (h₁ : reg.contains opts₁.execution_id = false)
    (h₂ : reg.contains opts₂.execution_id = false) :
    (execute_shell reg opts₁ oracle₁).ran = true ∧
    (execute_shell (execute_shell reg opts₁ oracle₁).registryDuring opts₃ oracle₃).result =
      Except.error ShellError.executionAlreadyRunning ∧
    (execute_shell (execute_shell reg opts₁ oracle₁).registryDuring opts₃ oracle₃).ran =
      false ∧
    (execute_shell (execute_shell reg opts₁ oracle₁).registryDuring opts₂ oracle₂).ran =
      true := by
  have hmem₁ : opts₁.execution_id ∉ reg :=
    (contains_eq_false_iff reg opts₁.execution_id).mp h₁
  have hmem₂ : opts₂.execution_id ∉ reg :=
    (contains_eq_false_iff reg opts₂.execution_id).mp h₂
  have hduring : (execute_shell reg opts₁ oracle₁).registryDuring =
      opts₁.execution_id :: reg := by
    rcases oracle₁ with ⟨race, runResult, children⟩
    rcases hto : opts₁.timeout_ms with _ | ms <;> rcases race <;>
      simp [execute_shell, hmem₁, hto]
  have hran : (execute_shell reg opts₁ oracle₁).ran = true := by
    rcases oracle₁ with ⟨race, runResult, children⟩
    rcases hto : opts₁.timeout_ms with _ | ms <;> rcases race <;>
      rcases runResult <;> simp [execute_shell, hmem₁, hto]
  have hmem₃ : opts₃.execution_id ∈ opts₁.execution_id :: reg := by
    rw [hsame]; exact List.mem_cons_self _ _
  have hnot₂ : opts₂.execution_id ∉ opts₁.execution_id :: reg := by
    intro hmem
    rcases List.mem_cons.mp hmem with heq | hin
    · exact hdistinct heq
    · exact hmem₂ hin
  refine ⟨hran, ?_, ?_, ?_⟩
  · rw [hduring]; simp [execute_shell, hmem₃]
  · rw [hduring]; simp [execute_shell, hmem₃]
  · rw [hduring]
    rcases oracle₂ with ⟨race, runResult, children⟩
    rcases hto : opts₂.timeout_ms with _ | ms <;> rcases race <;>
      rcases runResult <;> simp [execute_shell, hnot₂, hto]

theorem execute_shell_duplicate_rejected_witness :
    sampleOpts.execution_id = sampleOpts.execution_id ∧
    sampleOptsTimeout.execution_id ≠ sampleOpts.execution_id ∧
    ([] : List String).contains sampleOpts.execution_id = false ∧
    ([] : List String).contains sampleOptsTimeout.execution_id = false ∧
    (execute_shell
        (execute_shell [] sampleOpts sampleOracleDone).registryDuring
        sampleOpts sampleOracleCancel).result =
      Except.error ShellError.executionAlreadyRunning :=
  ⟨rfl, by decide, rfl, rfl,
   (execute_shell_duplicate_rejected [] sampleOpts sampleOptsTimeout sampleOpts
      sampleOracleDone sampleOracleCancel sampleOracleCancel
      rfl (by decide) rfl rfl).2.1⟩

/-- C6: `abort_shell_execution` returns success for every registry state and
every id: on a registered id it fires that record's cancellation channel
(and removes the record); on an absent id it is a no-op that leaves the
registry untouched and fires nothing. -/
theorem abort_shell_execution_total (reg : List String) (execution_id : String) :
    (abort_shell_execution reg execution_id).result = Except.ok () ∧
    (abort_shell_execution reg execution_id).fired = reg.contains execution_id ∧
    (abort_shell_execution reg execution_id).registryAfter = reg.erase execution_id ∧
    (reg.contains execution_id = false →
      (abort_shell_execution reg execution_id).registryAfter = reg ∧
      (abort_shell_execution reg execution_id).fired = false) := by
  refine ⟨rfl, rfl, rfl, fun habs => ⟨?_, habs⟩⟩
  have : execution_id ∉ reg :=
    (contains_eq_false_iff reg execution_id).mp habs
  simpa [abort_shell_execution] using List.erase_of_not_mem this

theorem abort_shell_execution_total_witness :
    (abort_shell_execution ["exec-a"] "unknown-id").result = Except.ok () ∧
    (abort_shell_execution ["exec-a"] "unknown-id").registryAfter = ["exec-a"] ∧
    (abort_shell_execution ["exec-a"] "unknown-id").fired = false :=
  ⟨(abort_shell_execution_total ["exec-a"] "unknown-id").1,
   ((abort_shell_execution_total ["exec-a"] "unknown-id").2.2.2 rfl).1,
   ((abort_shell_execution_total ["exec-a"] "unknown-id").2.2.2 rfl).2⟩

/-! ## Claim C7: the supplied env replaces the ambient environment -/

lemma run_env_foldl_absent :
    ∀ (env : List (String × String)) (acc : EnvMap) (k : String),
      (∀ kv ∈ env, kv.1 ≠ k) →
      env.foldl (fun acc kv =>
        set_global acc kv.1 { value := kv.2, exported := true }) acc k = acc k := by
  intro env
  induction env with
  | nil => intro acc k _; rfl
  | cons kv rest ih =>
    intro acc k hk
    rw [List.foldl_cons, ih _ k (fun kv' h => hk kv' (List.mem_cons_of_mem _ h))]
    have hne : k ≠ kv.1 := fun h => hk kv (List.mem_cons_self _ _) h.symm
    simp [set_global, hne]

lemma run_env_foldl_origin :
    ∀ (env : List (String × String)) (acc : EnvMap) (full : List (String × String))
      (k : String) (v : ShellVariable),
      (∀ k' v', acc k' = some v' → v'.exported = true ∧ (k', v'.value) ∈ full) →
      (∀ kv ∈ env, kv ∈ full) →
      env.foldl (fun acc kv =>
        set_global acc kv.1 { value := kv.2, exported := true }) acc k = some v →
      v.exported = true ∧ (k, v.value) ∈ full := by
  intro env
  induction env with
  | nil => intro acc full k v hacc _ h; exact hacc k v h
  | cons kv rest ih =>
    intro acc full k v hacc hsub h
    rw [List.foldl_cons] at h
    refine ih _ full k v ?_ (fun kv' h' => hsub kv' (List.mem_cons_of_mem _ h')) h
    intro k' v' hset
    by_cases hk : k' = kv.1
    · simp [set_global, hk] at hset
      subst hset
      exact ⟨rfl, by simpa [hk] using hsub kv (List.mem_cons_self _ _)⟩
    · simp [set_global, hk] at hset
      exact hacc k' v' hset

/-- C7: with an `env` mapping supplied, the interpreter's environment is a
function of that mapping alone — identical under any two ambient host
environments — every binding in it is an exported global variable whose
key/value pair comes from the supplied mapping, and a key bound only in the
ambient environment but absent from the mapping is not visible. -/
theorem run_shell_env_replaces_ambient (ambient₁ ambient₂ : EnvMap)
    (env : List (String × String)) :
    run_shell_env ambient₁ (some env) = run_shell_env ambient₂ (some env) ∧
    (∀ k, (∀ kv ∈ env, kv.1 ≠ k) → run_shell_env ambient₁ (some env) k = none) ∧
    (∀ k v, run_shell_env ambient₁ (some env) k = some v →
      v.exported = true ∧ (k, v.value) ∈ env) := by
  refine ⟨rfl, ?_, ?_⟩
  · intro k hk
    exact run_env_foldl_absent env _ k hk
  · intro k v h
    exact run_env_foldl_origin env _ env k v (fun k' v' h' => by cases h') (fun _ h => h) h

theorem run_shell_env_replaces_ambient_witness :
    sampleAmbient "HOME" = some { value := "/root", exported := true } ∧
    run_shell_env sampleAmbient (some [("PATH", "/bin")]) "HOME" = none :=
  ⟨rfl,
   (run_shell_env_replaces_ambient sampleAmbient (fun _ => none) [("PATH", "/bin")]).2.1
     "HOME" (by decide)⟩

/-! ## Claim C8: escalation on the cancel and timeout branches -/

lemma killsDelivered_append (present : Int → Bool) (signal : Int)
    (a b : List EscalationStep) :
    killsDelivered present signal (a ++ b) =
      killsDelivered present signal a ++ killsDelivered present signal b :=
  List.filterMap_append a b _

lemma killsDelivered_map_same (present : Int → Bool) (signal : Int) (pids : List Int) :
    killsDelivered present signal (pids.map fun p => EscalationStep.kill p signal) =
      pids.filter (fun p => present p) := by
  induction pids with
  | nil => rfl
  | cons p rest ih =>
    by_cases hp : present p = true
    · simp [killsDelivered, List.filterMap_cons, hp, List.filter_cons] at ih ⊢
      exact ih
    · simp only [Bool.not_eq_true] at hp
      simp [killsDelivered, List.filterMap_cons, hp, List.filter_cons] at ih ⊢
      exact ih

lemma killsDelivered_map_other (present : Int → Bool) (signal other : Int)
    (h : other ≠ signal) (pids : List Int) :
    killsDelivered present signal (pids.map fun p => EscalationStep.kill p other) = [] := by
  induction pids with
  | nil => rfl
  | cons p rest ih =>
    simp only [killsDelivered, List.map_cons, List.filterMap_cons] at ih ⊢
    simp [h, ih]

lemma killsDelivered_sleep (present : Int → Bool) (signal : Int) (ms : Nat) :
    killsDelivered present signal [EscalationStep.sleepMs ms] = [] := rfl

/-- C8: when an execution ends through the cancellation branch or the
timeout branch, the recorded escalation is exactly: a `SIGINT` attempt on
every direct child of the current process at that moment, the fixed 50 ms
grace sleep, then a `SIGKILL` attempt on every pid of that same set — so
the delivered `SIGKILL`s are exactly the pids of that set still present —
and on non-POSIX platforms the escalation body is a no-op. -/
theorem escalation_on_cancel_or_timeout (reg : List String)
    (opts : ShellExecuteOptions) (oracle : SupervisorEnv) (pids : List Int)
    (hfree : reg.contains opts.execution_id = false)
    (hwin : oracle.race = RaceWinner.cancelledSignal ∨
      (oracle.race = RaceWinner.timeoutFired ∧ opts.timeout_ms ≠ none))
    (hchildren : oracle.children = some pids)
    (hne : pids ≠ []) :
    (execute_shell reg opts oracle).escalation =
      (pids.map fun p => EscalationStep.kill p SIGINT)
        ++ [EscalationStep.sleepMs 50]
        ++ (pids.map fun p => EscalationStep.kill p SIGKILL) ∧
    (∀ present, killsDelivered present SIGKILL (execute_shell reg opts oracle).escalation =
      pids.filter (fun p => present p)) ∧
    (∀ present, killsDelivered present SIGINT (execute_shell reg opts oracle).escalation =
      pids.filter (fun p => present p)) ∧
    attempt_kill_children_nonunix = [] := by
  have hmem : opts.execution_id ∉ reg := (contains_eq_false_iff _ _).mp hfree
  have hempty : pids.isEmpty = false := by
    cases pids with
    | nil => exact absurd rfl hne
    | cons p rest => rfl
  have hesc : (execute_shell reg opts oracle).escalation =
      attempt_kill_children oracle.children := by
    rcases hwin with hc | ⟨ht, hto⟩
    · rcases hms : opts.timeout_ms with _ | ms <;>
        simp [execute_shell, hmem, hms, hc]
    · rcases hms : opts.timeout_ms with _ | ms
      · exact absurd hms hto
      · simp [execute_shell, hmem, hms, ht]
  have hbody : (execute_shell reg opts oracle).escalation =
      (pids.map fun p => EscalationStep.kill p SIGINT)
        ++ [EscalationStep.sleepMs 50]
        ++ (pids.map fun p => EscalationStep.kill p SIGKILL) := by
    rw [hesc, hchildren]
    simp [attempt_kill_children, hempty]
  refine ⟨hbody, ?_, ?_, rfl⟩
  · intro present
    rw [hbody, killsDelivered_append, killsDelivered_append,
      killsDelivered_map_other present SIGKILL SIGINT (by decide) pids,
      killsDelivered_sleep, killsDelivered_map_same]
    simp
  · intro present
    rw [hbody, killsDelivered_append, killsDelivered_append,
      killsDelivered_map_same,
      killsDelivered_sleep,
      killsDelivered_map_other present SIGINT SIGKILL (by decide) pids]
    simp

theorem escalation_on_cancel_or_timeout_witness :
    ([] : List String).contains sampleOptsTimeout.execution_id = false ∧
    sampleOracleCancel.race = RaceWinner.cancelledSignal ∧
    sampleOracleCancel.children = some [4242, 4243] ∧
    (execute_shell [] sampleOptsTimeout sampleOracleCancel).escalation =
      [EscalationStep.kill 4242 SIGINT, EscalationStep.kill 4243 SIGINT,
       EscalationStep.sleepMs 50,
       EscalationStep.kill 4242 SIGKILL, EscalationStep.kill 4243 SIGKILL] :=
  ⟨rfl, rfl, rfl, by
    rw [(escalation_on_cancel_or_timeout [] sampleOptsTimeout sampleOracleCancel
      [4242, 4243] rfl (Or.inl rfl) rfl (by decide)).1]
    rfl⟩

/-! ## Claims C3 and C10: the output relay -/

lemma ascii_utf8_start (b : Nat) (hb : b < 128) :
    utf8_start b = ([b], Utf8Pending.none) := by
  simp [utf8_start, hb]

lemma ascii_utf8_run_append :
    ∀ (xs ys : List Nat), (∀ b ∈ xs, b < 128) →
      utf8_run Utf8Pending.none (xs ++ ys) =
        utf8_run Utf8Pending.none xs ++ utf8_run Utf8Pending.none ys := by
  intro xs
  induction xs with
  | nil => intro ys _; rfl
  | cons b rest ih =>
    intro ys h
    have hb : b < 128 := h b (List.mem_cons_self _ _)
    have hrest : ∀ x ∈ rest, x < 128 := fun x hx => h x (List.mem_cons_of_mem _ hx)
    simp only [List.cons_append, utf8_run, ascii_utf8_start b hb,
      List.singleton_append, List.cons_append]
    simp [List.append_eq, ih ys hrest]

lemma ascii_utf8_run_id :
    ∀ (xs : List Nat), (∀ b ∈ xs, b < 128) → utf8_run Utf8Pending.none xs = xs := by
  intro xs
  induction xs with
  | nil => intro _; rfl
  | cons b rest ih =>
    intro h
    have hb : b < 128 := h b (List.mem_cons_self _ _)
    have hrest : ∀ x ∈ rest, x < 128 := fun x hx => h x (List.mem_cons_of_mem _ hx)
    simp only [utf8_run, ascii_utf8_start b hb, ih hrest, List.singleton_append]

lemma decode_flatten_ascii :
    ∀ (ls : List (List Nat)), (∀ c ∈ ls, ∀ b ∈ c, b < 128) →
      utf8_decode_lossy ls.flatten = (ls.map utf8_decode_lossy).flatten := by
  intro ls
  induction ls with
  | nil => intro _; rfl
  | cons c rest ih =>
    intro h
    have hc : ∀ b ∈ c, b < 128 := h c (List.mem_cons_self _ _)
    have hrest : ∀ c' ∈ rest, ∀ b ∈ c', b < 128 :=
      fun c' hc' => h c' (List.mem_cons_of_mem _ hc')
    simp only [List.flatten_cons, List.map_cons, utf8_decode_lossy,
      ascii_utf8_run_append _ _ hc]
    rw [show utf8_run Utf8Pending.none rest.flatten = utf8_decode_lossy rest.flatten from rfl,
      ih hrest]

lemma read_output_chunks_ok (stream : List Nat) (n : Nat) (rest : List ReadResult)
    (h : min (min n 8192) stream.length ≠ 0) :
    read_output_chunks stream (ReadResult.ok n :: rest) =
      stream.take (min (min n 8192) stream.length) ::
        read_output_chunks (stream.drop (min (min n 8192) stream.length)) rest := by
  simp only [read_output_chunks, h, if_false]

lemma read_output_chunks_flatten :
    ∀ (sizes : List Nat) (stream : List Nat),
      (∀ n ∈ sizes, 1 ≤ n ∧ n ≤ 8192) → stream.length ≤ sizes.sum →
      (read_output_chunks stream (sizes.map ReadResult.ok)).flatten = stream := by
  intro sizes
  induction sizes with
  | nil =>
    intro stream _ hall
    have : stream = [] := List.length_eq_zero.mp (Nat.le_zero.mp hall)
    subst this
    rfl
  | cons n rest ih =>
    intro stream hvalid hall
    have hn : 1 ≤ n ∧ n ≤ 8192 := hvalid n (List.mem_cons_self _ _)
    have hrest : ∀ m ∈ rest, 1 ≤ m ∧ m ≤ 8192 :=
      fun m hm => hvalid m (List.mem_cons_of_mem _ hm)
    by_cases hnil : stream = []
    · subst hnil
      simp [read_output_chunks]
    · have hlen : 1 ≤ stream.length := by
        cases stream with
        | nil => exact absurd rfl hnil
        | cons _ _ => simp
      have hmin : min (min n 8192) stream.length ≠ 0 := by
        have h1 : 1 ≤ min n 8192 := le_min hn.1 (by omega)
        have : 1 ≤ min (min n 8192) stream.length := le_min h1 hlen
        omega
      rw [List.map_cons, read_output_chunks_ok stream n _ hmin, List.flatten_cons]
      set k := min (min n 8192) stream.length with hk
      have hkmin : k = min n stream.length := by
        rw [hk, Nat.min_eq_left hn.2]
      have hdroplen : (stream.drop k).length ≤ rest.sum := by
        have hsum : stream.length ≤ n + rest.sum := by
          simpa [List.sum_cons] using hall
        rw [List.length_drop, hkmin]
        omega
      rw [ih (stream.drop k) hrest hdroplen]
      exact List.take_append_drop k stream

lemma read_output_chunk_size :
    ∀ (events : List ReadResult) (stream : List Nat),
      ∀ c ∈ read_output_chunks stream events, c.length ≤ 8192 := by
  intro events
  induction events with
  | nil => intro stream c hc; cases hc
  | cons e rest ih =>
    intro stream c hc
    cases e with
    | err => cases hc
    | ok n =>
      by_cases h : min (min n 8192) stream.length = 0
      · rw [show read_output_chunks stream (ReadResult.ok n :: rest) = [] by
          simp [read_output_chunks, h]] at hc
        cases hc
      · rw [read_output_chunks_ok stream n rest h] at hc
        rcases List.mem_cons.mp hc with heq | hmem
        · subst heq
          rw [List.length_take]
          have h1 : min (min n 8192) stream.length ≤ min n 8192 := Nat.min_le_left _ _
          have h2 : min n 8192 ≤ 8192 := Nat.min_le_right _ _
          omega
        · exact ih _ c hmem

/-- C3 (amended): the relay drains the pipe in chunks of at most the fixed
8 KB buffer until end-of-stream, and the byte chunks it reads concatenate,
in delivery order, to exactly the full byte stream; each delivered text
chunk is the lossy decoding of its own byte chunk, so the concatenation of
the delivered text equals the decoded full stream whenever no multi-byte
sequence straddles a chunk boundary — in particular for ASCII-only
output. -/
theorem read_output_concat (sizes : List Nat) (stream : List Nat)
    (hvalid : ∀ n ∈ sizes, 1 ≤ n ∧ n ≤ 8192)
    (hall : stream.length ≤ sizes.sum) :
    (read_output_chunks stream (sizes.map ReadResult.ok)).flatten = stream ∧
    (∀ c ∈ read_output_chunks stream (sizes.map ReadResult.ok), c.length ≤ 8192) ∧
    read_output stream (sizes.map ReadResult.ok) =
      (read_output_chunks stream (sizes.map ReadResult.ok)).map utf8_decode_lossy ∧
    ((∀ b ∈ stream, b < 128) →
      (read_output stream (sizes.map ReadResult.ok)).flatten = utf8_decode_lossy stream) := by
  have hflat := read_output_chunks_flatten sizes stream hvalid hall
  refine ⟨hflat, read_output_chunk_size _ stream, rfl, ?_⟩
  intro hascii
  have hchunks : ∀ c ∈ read_output_chunks stream (sizes.map ReadResult.ok),
      ∀ b ∈ c, b < 128 := by
    intro c hc b hb
    refine hascii b ?_
    rw [← hflat]
    exact List.mem_flatten.mpr ⟨c, hc, hb⟩
  rw [read_output, ← decode_flatten_ascii _ hchunks, hflat]

theorem read_output_concat_witness :
    (∀ n ∈ [8192], 1 ≤ n ∧ n ≤ 8192) ∧
    ([104, 105] : List Nat).length ≤ List.sum [8192] ∧
    (read_output_chunks [104, 105] ([8192].map ReadResult.ok)).flatten = [104, 105] :=
  ⟨by decide, by decide,
   (read_output_concat [8192] [104, 105] (by decide) (by decide)).1⟩

/-- The concrete byte stream of the C3 counterexample: 8191 ASCII bytes
followed by the two-byte UTF-8 encoding of U+00E9, 8193 bytes in all, so
the 8192-byte first read splits the final character across two chunks. -/
def c3Stream : List Nat := List.replicate 8191 0x61 ++ [0xC3, 0xA9]

/-- C3 (counterexample): for the valid UTF-8 byte stream `c3Stream` of
8193 bytes (more than 8 KB) and the read schedule that fills the 8 KB
buffer and then reads the final byte, the concatenation of the chunks
delivered to the callback differs from the text of the full byte stream:
the straddled character is replaced by two U+FFFD replacement characters,
which occur nowhere in the stream's own text. -/
theorem read_output_lossy_counterexample :
    8192 < c3Stream.length ∧
    (read_output c3Stream [ReadResult.ok 8192, ReadResult.ok 1]).flatten ≠
      utf8_decode_lossy c3Stream ∧
    0xFFFD ∈ (read_output c3Stream [ReadResult.ok 8192, ReadResult.ok 1]).flatten ∧
    0xFFFD ∉ utf8_decode_lossy c3Stream := by
  have hascii : ∀ b ∈ List.replicate 8191 (0x61 : Nat), b < 128 := by
    intro b hb
    rw [List.eq_of_mem_replicate hb]
    decide
  have hlen : c3Stream.length = 8193 := by
    rw [c3Stream, List.length_append, List.length_replicate]
    rfl
  have hmin : min (min 8192 8192) c3Stream.length = 8192 := by
    rw [hlen, Nat.min_self]
    exact Nat.min_eq_left (by omega)
  have htake : c3Stream.take 8192 = List.replicate 8191 0x61 ++ [0xC3] := by
    rw [c3Stream, List.take_append_eq_append_take, List.take_replicate,
      List.length_replicate, show (8192 : Nat) ⊓ 8191 = 8191 from Nat.min_eq_right (by omega),
      show (8192 : Nat) - 8191 = 1 by omega]
    rfl
  have hdrop : c3Stream.drop 8192 = [0xA9] := by
    rw [c3Stream, List.drop_append_eq_append_drop, List.drop_replicate,
      List.length_replicate, show (8191 : Nat) - 8192 = 0 by omega,
      show (8192 : Nat) - 8191 = 1 by omega, List.replicate_zero]
    rfl
  have hchunks : read_output_chunks c3Stream [ReadResult.ok 8192, ReadResult.ok 1] =
      [List.replicate 8191 0x61 ++ [0xC3], [0xA9]] := by
    rw [read_output_chunks_ok c3Stream 8192 _ (by rw [hmin]; decide), hmin, htake, hdrop]
    rfl
  have hdec1 : utf8_decode_lossy (List.replicate 8191 0x61 ++ [0xC3]) =
      List.replicate 8191 0x61 ++ [0xFFFD] := by
    rw [utf8_decode_lossy, ascii_utf8_run_append _ _ hascii, ascii_utf8_run_id _ hascii]
    rfl
  have hdecS : utf8_decode_lossy c3Stream = List.replicate 8191 0x61 ++ [0xE9] := by
    rw [c3Stream, utf8_decode_lossy, ascii_utf8_run_append _ _ hascii,
      ascii_utf8_run_id _ hascii]
    rfl
  have hout : (read_output c3Stream [ReadResult.ok 8192, ReadResult.ok 1]).flatten =
      List.replicate 8191 0x61 ++ [0xFFFD, 0xFFFD] := by
    rw [read_output, hchunks, List.map_cons, hdec1,
      show List.map utf8_decode_lossy [[0xA9]] = [[0xFFFD]] from rfl,
      List.flatten_cons, List.flatten_cons, List.flatten_nil, List.append_nil,
      List.append_assoc]
    rfl
  refine ⟨by omega, ?_, ?_, ?_⟩
  · rw [hout, hdecS]
    intro h
    have hcl := congrArg List.length h
    rw [List.length_append, List.length_append, List.length_replicate] at hcl
    simp only [List.length_cons, List.length_nil] at hcl
    omega
  · rw [hout]
    exact List.mem_append.mpr (Or.inr (by decide))
  · rw [hdecS]
    intro h
    rcases List.mem_append.mp h with hrep | hE9
    · exact absurd (List.eq_of_mem_replicate hrep) (by decide)
    · exact absurd hE9 (by decide)

lemma read_output_chunks_err_irrelevant :
    ∀ (pre : List ReadResult) (stream : List Nat) (post : List ReadResult),
      read_output_chunks stream (pre ++ ReadResult.err :: post) =
        read_output_chunks stream pre := by
  intro pre
  induction pre with
  | nil => intro stream post; rfl
  | cons e rest ih =>
    intro stream post
    cases e with
    | err => rfl
    | ok n =>
      by_cases h : min (min n 8192) stream.length = 0
      · simp [read_output_chunks, h]
      · rw [List.cons_append, read_output_chunks_ok _ n _ h,
          read_output_chunks_ok _ n _ h, ih]

lemma read_output_chunks_take :
    ∀ (events : List ReadResult) (stream : List Nat),
      ∃ k, (read_output_chunks stream events).flatten = stream.take k := by
  intro events
  induction events with
  | nil => intro stream; exact ⟨0, rfl⟩
  | cons e rest ih =>
    intro stream
    cases e with
    | err => exact ⟨0, rfl⟩
    | ok n =>
      by_cases h : min (min n 8192) stream.length = 0
      · refine ⟨0, ?_⟩
        simp [read_output_chunks, h]
      · obtain ⟨k', hk'⟩ := ih (stream.drop (min (min n 8192) stream.length))
        refine ⟨min (min n 8192) stream.length + k', ?_⟩
        rw [read_output_chunks_ok _ n _ h, List.flatten_cons, hk', List.take_add]

/-- C10: when a read from the pipe returns an I/O error the relay loop
stops exactly as at end-of-stream: the chunks delivered are those of the
schedule truncated at the error, the same holds for the decoded text
delivered to the callback, no error value is surfaced (the function's
result carries chunks only), and the delivered bytes are always a prefix
of the stream — bytes past the stopping point are never delivered. -/
theorem read_output_err_stops (stream : List Nat) (pre post : List ReadResult) :
    read_output_chunks stream (pre ++ ReadResult.err :: post) =
      read_output_chunks stream pre ∧
    read_output stream (pre ++ ReadResult.err :: post) = read_output stream pre ∧
    (∃ k, (read_output_chunks stream (pre ++ ReadResult.err :: post)).flatten =
      stream.take k) := by
  refine ⟨read_output_chunks_err_irrelevant pre stream post, ?_,
    read_output_chunks_take _ stream⟩
  rw [read_output, read_output, read_output_chunks_err_irrelevant pre stream post]
